import Mathlib

/-!
Verification of the Orthanc Explorer 2 plugin (`Plugin/Plugin.cpp`).

The development shallowly embeds the plugin's logic in Lean:

* JSON documents (`Json::Value` restricted to the shapes the plugin
  manipulates) become the inductive type `JValue`.  JsonCpp objects are
  `std::map`s ordered by key, so object members are embedded as
  association lists strictly sorted by key; `getVal` is member lookup and
  `setVal` is the map's insert-or-assign.
* `MergeJson` is the recursive configuration merge.
* `ServeEmbeddedFolder` is the directory-asset responder, parameterised
  by the embedded resource store and by the host's variable-substitution
  routine.
* `pluginStartup` is the configuration/validation slice of the plugin's
  initialization entry point.
* `GetPluginsConfiguration` is the plugin-enablement resolver.

Framework routines that the plugin calls but whose code lives outside the
plugin source (embedded resource store, MIME autodetection, configuration
section reading, URI splitting) are modelled from the specification and
carry a doc comment saying so.
-/

/-- A JSON value, as manipulated by the plugin through JsonCpp. -/
inductive JValue where
  | null : JValue
  | bool : Bool → JValue
  | num : Int → JValue
  | str : String → JValue
  | arr : List JValue → JValue
  | obj : List (String × JValue) → JValue

/-- Whether a JSON value is an object (JsonCpp `isObject` / `type() == objectValue`). -/
def JValue.isObject : JValue → Bool
  | .obj _ => true
  | _ => false

/-- Lexicographic comparison of character lists by code point, mirroring
how `std::string` comparison orders the keys of a JsonCpp object map. -/
def charsLtB : List Char → List Char → Bool
  | [], [] => false
  | [], _ :: _ => true
  | _ :: _, [] => false
  | c :: cs, d :: ds =>
    if c.toNat < d.toNat then true
    else if d.toNat < c.toNat then false
    else charsLtB cs ds

/-- Strict lexicographic order on JSON object keys. -/
def keyLtB (s t : String) : Bool := charsLtB s.data t.data

theorem charsLtB_irrefl (l : List Char) : charsLtB l l = false := by
  induction l with
  | nil => rfl
  | cons c cs ih => simp [charsLtB, ih]

theorem charsLtB_asymm (l₁ l₂ : List Char) (h : charsLtB l₁ l₂ = true) :
    charsLtB l₂ l₁ = false := by
  induction l₁ generalizing l₂ with
  | nil =>
    cases l₂ with
    | nil => simp [charsLtB] at h
    | cons d ds => rfl
  | cons c cs ih =>
    cases l₂ with
    | nil => simp [charsLtB] at h
    | cons d ds =>
      simp only [charsLtB] at h ⊢
      by_cases h1 : c.toNat < d.toNat
      · have h2 : ¬ d.toNat < c.toNat := by omega
        simp [h1, h2]
      · by_cases h2 : d.toNat < c.toNat
        · simp [h1, h2] at h
        · simp only [h1, h2, if_false] at h
          simp [h1, h2, ih ds h]

theorem charsLtB_trans (l₁ l₂ l₃ : List Char) (h₁ : charsLtB l₁ l₂ = true)
    (h₂ : charsLtB l₂ l₃ = true) : charsLtB l₁ l₃ = true := by
  induction l₁ generalizing l₂ l₃ with
  | nil =>
    cases l₃ with
    | nil => cases l₂ <;> simp [charsLtB] at h₂
    | cons e es => rfl
  | cons c cs ih =>
    cases l₂ with
    | nil => simp [charsLtB] at h₁
    | cons d ds =>
      cases l₃ with
      | nil => simp [charsLtB] at h₂
      | cons e es =>
        simp only [charsLtB] at h₁ h₂ ⊢
        by_cases hcd : c.toNat < d.toNat
        · by_cases hde : d.toNat < e.toNat
          · have hce : c.toNat < e.toNat := by omega
            simp [hce]
          · by_cases hed : e.toNat < d.toNat
            · simp [hde, hed] at h₂
            · have hce : c.toNat < e.toNat := by omega
              simp [hce]
        · by_cases hdc : d.toNat < c.toNat
          · simp [hcd, hdc] at h₁
          · by_cases hde : d.toNat < e.toNat
            · have hce : c.toNat < e.toNat := by omega
              simp [hce]
            · by_cases hed : e.toNat < d.toNat
              · simp [hde, hed] at h₂
              · simp only [hcd, hdc, if_false] at h₁
                simp only [hde, hed, if_false] at h₂
                have hce : ¬ c.toNat < e.toNat := by omega
                have hec : ¬ e.toNat < c.toNat := by omega
                simp [hce, hec, ih ds es h₁ h₂]

theorem charsLtB_total_eq (l₁ l₂ : List Char) (h₁ : charsLtB l₁ l₂ = false)
    (h₂ : charsLtB l₂ l₁ = false) : l₁ = l₂ := by
  induction l₁ generalizing l₂ with
  | nil =>
    cases l₂ with
    | nil => rfl
    | cons d ds => simp [charsLtB] at h₁
  | cons c cs ih =>
    cases l₂ with
    | nil => simp [charsLtB] at h₂
    | cons d ds =>
      simp only [charsLtB] at h₁ h₂
      by_cases hcd : c.toNat < d.toNat
      · simp [hcd] at h₁
      · by_cases hdc : d.toNat < c.toNat
        · simp [hdc] at h₂
        · simp only [hcd, hdc, if_false] at h₁ h₂
          have hn : c.toNat = d.toNat := by omega
          have hc : c = d := Char.eq_of_val_eq (UInt32.ext hn)
          rw [hc, ih ds h₁ h₂]

theorem keyLtB_trans {a b c : String} (h₁ : keyLtB a b = true) (h₂ : keyLtB b c = true) :
    keyLtB a c = true :=
  charsLtB_trans a.data b.data c.data h₁ h₂

theorem keyLtB_asymm {a b : String} (h : keyLtB a b = true) : keyLtB b a = false :=
  charsLtB_asymm a.data b.data h

theorem keyLtB_ne {a b : String} (h : keyLtB a b = true) : a ≠ b := by
  intro he
  subst he
  rw [keyLtB, charsLtB_irrefl] at h
  exact absurd h (by simp)

theorem keyLtB_total (a b : String) (h₁ : keyLtB a b = false) (h₂ : keyLtB b a = false) :
    a = b := by
  have hd := charsLtB_total_eq a.data b.data h₁ h₂
  cases a
  cases b
  exact congrArg String.mk hd

/-- Member lookup in a JSON object (JsonCpp `operator[]` read / `isMember`). -/
def getVal : List (String × JValue) → String → Option JValue
  | [], _ => none
  | (k, v) :: rest, key => if k = key then some v else getVal rest key

/-- Member assignment in a JSON object.  JsonCpp objects are `std::map`s
sorted by key, so assignment either updates the existing entry or inserts
the new entry at its sorted position. -/
def setVal : List (String × JValue) → String → JValue → List (String × JValue)
  | [], key, v => [(key, v)]
  | (k, w) :: rest, key, v =>
    if key = k then (key, v) :: rest
    else if keyLtB key k then (key, v) :: (k, w) :: rest
    else (k, w) :: setVal rest key v

/-- Every key in the list is strictly greater than `k`. -/
def allKeysGt (k : String) : List (String × JValue) → Bool
  | [] => true
  | (k', _) :: rest => keyLtB k k' && allKeysGt k rest

/-- The member list is strictly sorted by key, as a JsonCpp `std::map` is. -/
def sortedKeysB : List (String × JValue) → Bool
  | [] => true
  | (k, _) :: rest => allKeysGt k rest && sortedKeysB rest

mutual

/-- A JSON value all of whose object member lists are strictly sorted by
key: the invariant every value built through JsonCpp satisfies. -/
def wfJson : JValue → Bool
  | .obj ms => sortedKeysB ms && wfMembers ms
  | _ => true

/-- All member values of an object satisfy `wfJson`. -/
def wfMembers : List (String × JValue) → Bool
  | [] => true
  | (_, v) :: rest => wfJson v && wfMembers rest

end

mutual

/-- Embedding of `MergeJson` (Plugin.cpp:114): if both arguments are
objects, merge the members of `b` into `a`; otherwise return `a`
unchanged. -/
def MergeJson : JValue → JValue → JValue
  | .obj a, .obj b => .obj (mergeMembers a b)
  | a, _ => a

/-- The loop of `MergeJson` over the member names of `b`. -/
def mergeMembers (a : List (String × JValue)) : List (String × JValue) → List (String × JValue)
  | [] => a
  | (key, bv) :: rest => mergeMembers (mergeAt a key bv) rest

/-- One iteration of the `MergeJson` loop: if `a[key]` is present and
object-typed and `b[key]` is object-typed, recurse at that key; otherwise
assign `a[key] = b[key]`. -/
def mergeAt (a : List (String × JValue)) (key : String) : JValue → List (String × JValue)
  | .obj bo =>
    match getVal a key with
    | some (.obj ao) => setVal a key (.obj (mergeMembers ao bo))
    | _ => setVal a key (.obj bo)
  | bv => setVal a key bv

end

theorem getVal_setVal_self (l : List (String × JValue)) (k : String) (v : JValue) :
    getVal (setVal l k v) k = some v := by
  induction l with
  | nil => simp [setVal, getVal]
  | cons p rest ih =>
    obtain ⟨k', w⟩ := p
    by_cases h1 : k = k'
    · simp [setVal, h1, getVal]
    · by_cases h2 : keyLtB k k' = true
      · simp [setVal, h1, h2, getVal]
      · simp [setVal, h1, h2, getVal, Ne.symm h1, ih]

theorem getVal_setVal_ne (l : List (String × JValue)) (k k' : String) (v : JValue)
    (h : k' ≠ k) : getVal (setVal l k v) k' = getVal l k' := by
  induction l with
  | nil => simp [setVal, getVal, Ne.symm h]
  | cons p rest ih =>
    obtain ⟨k₀, w⟩ := p
    by_cases h1 : k = k₀
    · subst h1
      simp [setVal, getVal, Ne.symm h]
    · by_cases h2 : keyLtB k k₀ = true
      · simp [setVal, h1, h2, getVal, Ne.symm h]
      · simp [setVal, h1, h2, getVal, ih]

theorem getVal_some_mem (l : List (String × JValue)) (k : String) (v : JValue)
    (h : getVal l k = some v) : (k, v) ∈ l := by
  induction l with
  | nil => simp [getVal] at h
  | cons p rest ih =>
    obtain ⟨k', w⟩ := p
    by_cases h1 : k' = k
    · subst h1
      simp [getVal] at h
      simp [h]
    · simp [getVal, h1] at h
      exact List.mem_cons_of_mem _ (ih h)

theorem getVal_eq_none_of_allKeysGt (l : List (String × JValue)) (k : String)
    (h : allKeysGt k l = true) : getVal l k = none := by
  induction l with
  | nil => simp [getVal]
  | cons p rest ih =>
    obtain ⟨k', w⟩ := p
    simp only [allKeysGt, Bool.and_eq_true] at h
    have hne : k' ≠ k := Ne.symm (keyLtB_ne h.1)
    simp [getVal, hne, ih h.2]

theorem getVal_key_gt (l : List (String × JValue)) (k₀ k : String) (v : JValue)
    (ha : allKeysGt k₀ l = true) (hg : getVal l k = some v) : keyLtB k₀ k = true := by
  induction l with
  | nil => simp [getVal] at hg
  | cons p rest ih =>
    obtain ⟨k', w⟩ := p
    simp only [allKeysGt, Bool.and_eq_true] at ha
    by_cases h1 : k' = k
    · subst h1; exact ha.1
    · simp [getVal, h1] at hg
      exact ih ha.2 hg

theorem allKeysGt_trans (l : List (String × JValue)) (k₀ k₁ : String)
    (h : keyLtB k₀ k₁ = true) (h' : allKeysGt k₁ l = true) : allKeysGt k₀ l = true := by
  induction l with
  | nil => simp [allKeysGt]
  | cons p rest ih =>
    obtain ⟨k', w⟩ := p
    simp only [allKeysGt, Bool.and_eq_true] at h' ⊢
    exact ⟨keyLtB_trans h h'.1, ih h'.2⟩

theorem allKeysGt_setVal (l : List (String × JValue)) (k₀ k : String) (v : JValue)
    (h : allKeysGt k₀ l = true) (hk : keyLtB k₀ k = true) : allKeysGt k₀ (setVal l k v) = true := by
  induction l with
  | nil =>
    simp only [setVal, allKeysGt, Bool.and_eq_true, and_true]
    exact hk
  | cons p rest ih =>
    obtain ⟨k', w⟩ := p
    simp only [allKeysGt, Bool.and_eq_true] at h
    by_cases h1 : k = k'
    · rw [setVal, if_pos h1]
      simp only [allKeysGt, Bool.and_eq_true]
      exact ⟨hk, h.2⟩
    · by_cases h2 : keyLtB k k' = true
      · rw [setVal, if_neg h1, if_pos h2]
        simp only [allKeysGt, Bool.and_eq_true]
        exact ⟨hk, h.1, h.2⟩
      · rw [setVal, if_neg h1, if_neg h2]
        simp only [allKeysGt, Bool.and_eq_true]
        exact ⟨h.1, ih h.2⟩

theorem setVal_sorted (l : List (String × JValue)) (k : String) (v : JValue)
    (h : sortedKeysB l = true) : sortedKeysB (setVal l k v) = true := by
  induction l with
  | nil => simp [setVal, sortedKeysB, allKeysGt]
  | cons p rest ih =>
    obtain ⟨k', w⟩ := p
    simp only [sortedKeysB, Bool.and_eq_true] at h
    by_cases h1 : k = k'
    · subst h1
      rw [setVal, if_pos rfl]
      simp only [sortedKeysB, Bool.and_eq_true]
      exact ⟨h.1, h.2⟩
    · by_cases h2 : keyLtB k k' = true
      · rw [setVal, if_neg h1, if_pos h2]
        simp only [sortedKeysB, allKeysGt, Bool.and_eq_true]
        exact ⟨⟨h2, allKeysGt_trans rest k k' h2 h.1⟩, h.1, h.2⟩
      · have hgt : keyLtB k' k = true := by
          cases hb : keyLtB k' k with
          | true => rfl
          | false =>
            exact absurd (keyLtB_total k k' (Bool.not_eq_true _ ▸ h2 : keyLtB k k' = false) hb) h1
        rw [setVal, if_neg h1, if_neg h2]
        simp only [sortedKeysB, Bool.and_eq_true]
        exact ⟨allKeysGt_setVal rest k' k v h.1 hgt, ih h.2⟩

theorem eq_nil_of_getVal_none (l : List (String × JValue))
    (h : ∀ k, getVal l k = none) : l = [] := by
  cases l with
  | nil => rfl
  | cons p rest =>
    obtain ⟨k, v⟩ := p
    have := h k
    simp [getVal] at this

theorem getVal_ext (l₁ l₂ : List (String × JValue))
    (h₁ : sortedKeysB l₁ = true) (h₂ : sortedKeysB l₂ = true)
    (h : ∀ k, getVal l₁ k = getVal l₂ k) : l₁ = l₂ := by
  induction l₁ generalizing l₂ with
  | nil =>
    exact (eq_nil_of_getVal_none l₂ fun k => (h k).symm).symm
  | cons p t₁ ih =>
    obtain ⟨k₁, v₁⟩ := p
    cases l₂ with
    | nil =>
      have := h k₁
      simp [getVal] at this
    | cons q t₂ =>
      obtain ⟨k₂, v₂⟩ := q
      simp only [sortedKeysB, Bool.and_eq_true] at h₁ h₂
      have hgv₁ : getVal ((k₁, v₁) :: t₁) k₁ = some v₁ := by simp [getVal]
      have hk : k₁ = k₂ := by
        by_contra hne
        have hne' : k₂ ≠ k₁ := fun he => hne he.symm
        have e₁ : getVal t₂ k₁ = some v₁ := by
          have hx := (h k₁).symm.trans hgv₁
          rwa [getVal, if_neg hne'] at hx
        have e₂ : getVal t₁ k₂ = some v₂ := by
          have hgv₂ : getVal ((k₂, v₂) :: t₂) k₂ = some v₂ := by simp [getVal]
          have hx := (h k₂).trans hgv₂
          rwa [getVal, if_neg hne] at hx
        have g₁ : keyLtB k₂ k₁ = true := getVal_key_gt t₂ k₂ k₁ v₁ h₂.1 e₁
        have g₂ : keyLtB k₁ k₂ = true := getVal_key_gt t₁ k₁ k₂ v₂ h₁.1 e₂
        have g₃ := keyLtB_asymm g₁
        rw [g₂] at g₃
        exact absurd g₃ (by simp)
      subst hk
      have hgv₂ : getVal ((k₁, v₂) :: t₂) k₁ = some v₂ := by simp [getVal]
      have hv : v₁ = v₂ := Option.some.inj ((hgv₁.symm.trans (h k₁)).trans hgv₂)
      have htail : ∀ k, getVal t₁ k = getVal t₂ k := by
        intro k
        by_cases hk2 : k₁ = k
        · subst hk2
          rw [getVal_eq_none_of_allKeysGt t₁ k₁ h₁.1,
              getVal_eq_none_of_allKeysGt t₂ k₁ h₂.1]
        · have hx := h k
          rwa [getVal, if_neg hk2, getVal, if_neg hk2] at hx
      rw [hv, ih t₂ h₁.2 h₂.2 htail]

theorem wf_obj_sorted (ms : List (String × JValue))
    (h : wfJson (JValue.obj ms) = true) : sortedKeysB ms = true := by
  simp only [wfJson, Bool.and_eq_true] at h
  exact h.1

theorem wf_obj_members (ms : List (String × JValue))
    (h : wfJson (JValue.obj ms) = true) : wfMembers ms = true := by
  simp only [wfJson, Bool.and_eq_true] at h
  exact h.2

theorem wfMembers_mem (l : List (String × JValue)) (k : String) (v : JValue)
    (hw : wfMembers l = true) (h : (k, v) ∈ l) : wfJson v = true := by
  induction l with
  | nil => simp at h
  | cons p rest ih =>
    obtain ⟨k', w⟩ := p
    simp only [wfMembers, Bool.and_eq_true] at hw
    rcases List.mem_cons.mp h with he | hm
    · cases he
      exact hw.1
    · exact ih hw.2 hm

theorem wfMembers_getVal (l : List (String × JValue)) (k : String) (v : JValue)
    (hw : wfMembers l = true) (h : getVal l k = some v) : wfJson v = true :=
  wfMembers_mem l k v hw (getVal_some_mem l k v h)

theorem sizeOf_getVal_lt (l : List (String × JValue)) (k : String) (v : JValue)
    (h : getVal l k = some v) : sizeOf v < sizeOf l := by
  have hm : (k, v) ∈ l := getVal_some_mem l k v h
  have h1 : sizeOf (k, v) < sizeOf l := List.sizeOf_lt_of_mem hm
  have h2 : sizeOf v < sizeOf (k, v) := by
    simp only [Prod.mk.sizeOf_spec]
    omega
  omega

theorem mergeAt_getVal_ne (a : List (String × JValue)) (key : String) (bv : JValue)
    (k : String) (h : k ≠ key) : getVal (mergeAt a key bv) k = getVal a k := by
  cases bv with
  | obj bo =>
    rw [mergeAt]
    rcases hga : getVal a key with _ | v
    · simp only [hga]
      exact getVal_setVal_ne a key k _ h
    · cases v <;> simp only [hga] <;> exact getVal_setVal_ne a key k _ h
  | null => exact getVal_setVal_ne a key k _ h
  | bool b => exact getVal_setVal_ne a key k _ h
  | num n => exact getVal_setVal_ne a key k _ h
  | str s => exact getVal_setVal_ne a key k _ h
  | arr xs => exact getVal_setVal_ne a key k _ h

theorem mergeAt_sorted (a : List (String × JValue)) (key : String) (bv : JValue)
    (h : sortedKeysB a = true) : sortedKeysB (mergeAt a key bv) = true := by
  cases bv with
  | obj bo =>
    rw [mergeAt]
    rcases hga : getVal a key with _ | v
    · exact setVal_sorted a key _ h
    · cases v <;> exact setVal_sorted a key _ h
  | null => exact setVal_sorted a key _ h
  | bool b => exact setVal_sorted a key _ h
  | num n => exact setVal_sorted a key _ h
  | str s => exact setVal_sorted a key _ h
  | arr xs => exact setVal_sorted a key _ h

theorem mergeMembers_sorted (b a : List (String × JValue))
    (h : sortedKeysB a = true) : sortedKeysB (mergeMembers a b) = true := by
  induction b generalizing a with
  | nil => exact h
  | cons p rest ih =>
    obtain ⟨key, bv⟩ := p
    rw [mergeMembers]
    exact ih (mergeAt a key bv) (mergeAt_sorted a key bv h)

/-- The merge contract as the specification states it, per key: keys
absent from the source are untouched; a key whose values are object-typed
on both sides is merged recursively; every other key is overwritten with
the source's value. -/
def mergeSpecAt (a b : List (String × JValue)) (key : String) : Option JValue :=
  match getVal b key with
  | none => getVal a key
  | some sv =>
    match getVal a key, sv with
    | some (JValue.obj ta), JValue.obj sb => some (MergeJson (JValue.obj ta) (JValue.obj sb))
    | _, _ => some sv

theorem getVal_mergeMembers (b : List (String × JValue)) :
    sortedKeysB b = true → ∀ (a : List (String × JValue)) (k : String),
    getVal (mergeMembers a b) k = mergeSpecAt a b k := by
  induction b with
  | nil =>
    intro _ a k
    simp [mergeMembers, mergeSpecAt, getVal]
  | cons p rest ih =>
    obtain ⟨key, bv⟩ := p
    intro hb a k
    simp only [sortedKeysB, Bool.and_eq_true] at hb
    rw [mergeMembers, ih hb.2]
    by_cases hk : k = key
    · subst hk
      have hrest : getVal rest k = none := getVal_eq_none_of_allKeysGt rest k hb.1
      have hcons : getVal ((k, bv) :: rest) k = some bv := by simp [getVal]
      simp only [mergeSpecAt, hrest, hcons]
      rcases hga : getVal a k with _ | v
      · cases bv <;> simp only [mergeAt, hga, getVal_setVal_self]
      · cases v <;> cases bv <;>
          simp only [mergeAt, hga, getVal_setVal_self, MergeJson]
    · have hne' : key ≠ k := fun he => hk he.symm
      have h1 : getVal ((key, bv) :: rest) k = getVal rest k := by
        rw [getVal, if_neg hne']
      simp only [mergeSpecAt, h1, mergeAt_getVal_ne a key bv k hk]

theorem mergeMembers_self (b : List (String × JValue)) (hs : sortedKeysB b = true)
    (hw : wfMembers b = true) : mergeMembers b b = b := by
  apply getVal_ext (mergeMembers b b) b (mergeMembers_sorted b b hs) hs
  intro k
  rw [getVal_mergeMembers b hs b k, mergeSpecAt]
  rcases hgb : getVal b k with _ | sv
  · rfl
  · cases sv with
    | obj bo =>
      have hwbo := wfMembers_getVal b k (JValue.obj bo) hw hgb
      simp only [MergeJson]
      rw [mergeMembers_self bo (wf_obj_sorted bo hwbo) (wf_obj_members bo hwbo)]
    | null => rfl
    | bool bb => rfl
    | num nn => rfl
    | str ss => rfl
    | arr xs => rfl
termination_by sizeOf b
decreasing_by
  have h1 : sizeOf (JValue.obj bo) < sizeOf b := sizeOf_getVal_lt b k _ hgb
  simp only [JValue.obj.sizeOf_spec] at h1
  omega

theorem mergeMembers_idem (b : List (String × JValue)) (hbs : sortedKeysB b = true)
    (hbw : wfMembers b = true) (a : List (String × JValue)) (has : sortedKeysB a = true)
    (haw : wfMembers a = true) :
    mergeMembers (mergeMembers a b) b = mergeMembers a b := by
  have hr : ∀ k, getVal (mergeMembers a b) k = mergeSpecAt a b k :=
    getVal_mergeMembers b hbs a
  apply getVal_ext _ _
    (mergeMembers_sorted b (mergeMembers a b) (mergeMembers_sorted b a has))
    (mergeMembers_sorted b a has)
  intro k
  rw [getVal_mergeMembers b hbs (mergeMembers a b) k, mergeSpecAt]
  rcases hgb : getVal b k with _ | sv
  · rfl
  · rw [hr k, mergeSpecAt, hgb]
    cases sv with
    | obj bo =>
      have hwbo := wfMembers_getVal b k (JValue.obj bo) hbw hgb
      have hbo₁ := wf_obj_sorted bo hwbo
      have hbo₂ := wf_obj_members bo hwbo
      rcases hga : getVal a k with _ | av
      · simp only [MergeJson]
        rw [mergeMembers_self bo hbo₁ hbo₂]
      · cases av with
        | obj ao =>
          have hwao := wfMembers_getVal a k (JValue.obj ao) haw hga
          simp only [MergeJson]
          rw [mergeMembers_idem bo hbo₁ hbo₂ ao (wf_obj_sorted ao hwao) (wf_obj_members ao hwao)]
        | null =>
          simp only [MergeJson]
          rw [mergeMembers_self bo hbo₁ hbo₂]
        | bool bb =>
          simp only [MergeJson]
          rw [mergeMembers_self bo hbo₁ hbo₂]
        | num nn =>
          simp only [MergeJson]
          rw [mergeMembers_self bo hbo₁ hbo₂]
        | str ss =>
          simp only [MergeJson]
          rw [mergeMembers_self bo hbo₁ hbo₂]
        | arr xs =>
          simp only [MergeJson]
          rw [mergeMembers_self bo hbo₁ hbo₂]
    | null =>
      rcases hga : getVal a k with _ | av
      · rfl
      · cases av <;> rfl
    | bool bb =>
      rcases hga : getVal a k with _ | av
      · rfl
      · cases av <;> rfl
    | num nn =>
      rcases hga : getVal a k with _ | av
      · rfl
      · cases av <;> rfl
    | str ss =>
      rcases hga : getVal a k with _ | av
      · rfl
      · cases av <;> rfl
    | arr xs =>
      rcases hga : getVal a k with _ | av
      · rfl
      · cases av <;> rfl
termination_by sizeOf b
decreasing_by
  all_goals
    have h1 : sizeOf (JValue.obj bo) < sizeOf b := sizeOf_getVal_lt b k _ hgb
    simp only [JValue.obj.sizeOf_spec] at h1
    omega

/-- Path lookup in a JSON document: follow a list of keys through nested
objects; absent keys or non-object intermediate values give `none`. -/
def getPath : JValue → List String → Option JValue
  | v, [] => some v
  | .obj ms, k :: rest =>
    match getVal ms k with
    | some v => getPath v rest
    | none => none
  | _, _ :: _ => none

/-- C1: for object inputs, `MergeJson` processes every key of the source:
if the target's value at the key is present and object-typed and the
source's value there is object-typed it merges recursively at that key,
and in every other case it assigns the source's value as a full
replacement; if either top-level input is not an object, the target is
left completely unchanged and no error is signalled. -/
theorem C1_merge_contract :
    (∀ a b : JValue, (a.isObject = false ∨ b.isObject = false) → MergeJson a b = a) ∧
    (∀ a b : List (String × JValue), sortedKeysB b = true →
      ∀ key, getVal (mergeMembers a b) key = mergeSpecAt a b key) := by
  constructor
  · intro a b h
    rcases h with h | h
    · cases a with
      | obj ms => simp [JValue.isObject] at h
      | null => cases b <;> simp [MergeJson]
      | bool x => cases b <;> simp [MergeJson]
      | num x => cases b <;> simp [MergeJson]
      | str x => cases b <;> simp [MergeJson]
      | arr x => cases b <;> simp [MergeJson]
    · cases b with
      | obj ms => simp [JValue.isObject] at h
      | null => cases a <;> simp [MergeJson]
      | bool x => cases a <;> simp [MergeJson]
      | num x => cases a <;> simp [MergeJson]
      | str x => cases a <;> simp [MergeJson]
      | arr x => cases a <;> simp [MergeJson]
  · intro a b hb key
    exact getVal_mergeMembers b hb a key

/-- Witness for C1 at concrete inputs. -/
theorem C1_merge_contract_witness :
    MergeJson (JValue.num 3) (JValue.obj []) = JValue.num 3 ∧
    getVal (mergeMembers [("a", JValue.num 1)] [("a", JValue.num 2)]) "a" =
      mergeSpecAt [("a", JValue.num 1)] [("a", JValue.num 2)] "a" :=
  ⟨C1_merge_contract.1 (JValue.num 3) (JValue.obj []) (Or.inl rfl),
   C1_merge_contract.2 [("a", JValue.num 1)] [("a", JValue.num 2)] rfl "a"⟩

/-- C8: applying the merge with the same source a second time changes
nothing: for all JSON documents A and B (with JsonCpp's sorted-member-map
invariant), MergeJson (MergeJson A B) B = MergeJson A B. -/
theorem C8_merge_idempotent (A B : JValue) (hA : wfJson A = true) (hB : wfJson B = true) :
    MergeJson (MergeJson A B) B = MergeJson A B := by
  cases B with
  | obj b =>
    cases A with
    | obj a =>
      simp only [MergeJson]
      rw [mergeMembers_idem b (wf_obj_sorted b hB) (wf_obj_members b hB)
        a (wf_obj_sorted a hA) (wf_obj_members a hA)]
    | null => simp [MergeJson]
    | bool x => simp [MergeJson]
    | num x => simp [MergeJson]
    | str x => simp [MergeJson]
    | arr x => simp [MergeJson]
  | null => cases A <;> simp [MergeJson]
  | bool x => cases A <;> simp [MergeJson]
  | num x => cases A <;> simp [MergeJson]
  | str x => cases A <;> simp [MergeJson]
  | arr x => cases A <;> simp [MergeJson]

/-- Witness for C8 at concrete inputs. -/
theorem C8_merge_idempotent_witness :
    MergeJson
        (MergeJson (JValue.obj [("a", JValue.num 1), ("c", JValue.obj [("x", JValue.num 5)])])
          (JValue.obj [("a", JValue.obj [("b", JValue.num 2)]), ("c", JValue.obj [("y", JValue.num 6)])]))
        (JValue.obj [("a", JValue.obj [("b", JValue.num 2)]), ("c", JValue.obj [("y", JValue.num 6)])]) =
      MergeJson (JValue.obj [("a", JValue.num 1), ("c", JValue.obj [("x", JValue.num 5)])])
        (JValue.obj [("a", JValue.obj [("b", JValue.num 2)]), ("c", JValue.obj [("y", JValue.num 6)])]) :=
  C8_merge_idempotent _ _ (by rfl) (by rfl)

/-- C9: the merge preserves every key path that is present in the default
document and absent at every non-empty prefix from the override document;
keys the override does not mention are never removed or altered. -/
theorem C9_merge_frame (A B : JValue) (hB : wfJson B = true)
    (path : List String) (v : JValue)
    (habsent : ∀ n : Nat, 0 < n → getPath B (path.take n) = none)
    (hA : getPath A path = some v) :
    getPath (MergeJson A B) path = some v := by
  cases B with
  | obj bs =>
    cases A with
    | obj as =>
      cases path with
      | nil =>
        have h1 := habsent 1 (by decide)
        simp [getPath] at h1
      | cons k rest =>
        have h1 := habsent 1 (by decide)
        simp only [List.take_succ_cons, List.take_zero] at h1
        have hgb : getVal bs k = none := by
          rcases hh : getVal bs k with _ | w
          · rfl
          · rw [getPath, hh] at h1
            rcases w <;> simp [getPath] at h1
        simp only [MergeJson]
        rw [getPath, getVal_mergeMembers bs (wf_obj_sorted bs hB) as k, mergeSpecAt, hgb]
        rw [getPath] at hA
        exact hA
    | null => cases path <;> simpa [MergeJson] using hA
    | bool x => cases path <;> simpa [MergeJson] using hA
    | num x => cases path <;> simpa [MergeJson] using hA
    | str x => cases path <;> simpa [MergeJson] using hA
    | arr x => cases path <;> simpa [MergeJson] using hA
  | null => cases A <;> simpa [MergeJson] using hA
  | bool x => cases A <;> simpa [MergeJson] using hA
  | num x => cases A <;> simpa [MergeJson] using hA
  | str x => cases A <;> simpa [MergeJson] using hA
  | arr x => cases A <;> simpa [MergeJson] using hA

/-- Witness for C9 at concrete inputs. -/
theorem C9_merge_frame_witness :
    getPath
        (MergeJson (JValue.obj [("keep", JValue.num 7)]) (JValue.obj [("new", JValue.num 8)]))
        ["keep"] = some (JValue.num 7) :=
  C9_merge_frame (JValue.obj [("keep", JValue.num 7)]) (JValue.obj [("new", JValue.num 8)])
    (by rfl) ["keep"] (JValue.num 7)
    (fun n hn => by
      cases n with
      | zero => exact absurd hn (by decide)
      | succ m => rfl)
    (by rfl)

/-- HTTP methods as seen by a plugin REST callback. -/
inductive HttpMethod where
  | get : HttpMethod
  | post : HttpMethod
  | put : HttpMethod
  | delete : HttpMethod
deriving DecidableEq

/-- The observable parts of a REST response produced by a handler:
status code, body bytes and content type. -/
structure HttpResponse where
  status : Nat
  body : String
  mime : String
deriving DecidableEq

/-- The MIME types the responder distinguishes. -/
inductive MimeType where
  | javaScript : MimeType
  | html : MimeType
  | css : MimeType
  | json : MimeType
  | ico : MimeType
  | binary : MimeType
deriving DecidableEq

/-- Modelled from the spec: the framework's `Orthanc::EnumerationToString`
on MIME types, which is not part of the plugin source. -/
def mimeTypeToString : MimeType → String
  | .javaScript => "application/javascript"
  | .html => "text/html"
  | .css => "text/css"
  | .json => "application/json"
  | .ico => "image/x-icon"
  | .binary => "application/octet-stream"

/-- Whether `s` starts with `t` (the framework's
`Orthanc::Toolbox::StartsWith`, a plain string-prefix test). -/
def StartsWith (s t : String) : Bool := t.data.isPrefixOf s.data

/-- Whether `s` ends with `t`, used to inspect a path's extension. -/
def endsWithB (s t : String) : Bool := t.data.reverse.isPrefixOf s.data.reverse

/-- Modelled from the spec: the framework's
`Orthanc::SystemToolbox::AutodetectMimeType`, which is not part of the
plugin source: "an auto-detected MIME type based on the path's extension
(or default binary type if none)". -/
def AutodetectMimeType (path : String) : MimeType :=
  if endsWithB path ".js" then .javaScript
  else if endsWithB path ".html" then .html
  else if endsWithB path ".css" then .css
  else if endsWithB path ".json" then .json
  else if endsWithB path ".ico" then .ico
  else .binary

/-- Lookup in the embedded asset store, modelled as an association list
from absolute resource path to content. -/
def lookupAsset : List (String × String) → String → Option String
  | [], _ => none
  | (p, c) :: rest, path => if p = path then some c else lookupAsset rest path

/-- Modelled from the spec: `Orthanc::EmbeddedResources::GetDirectoryResource`
(build-generated code, not part of the plugin source): "a missing resource
yields an empty body, not an error". -/
def GetDirectoryResource (store : List (String × String)) (path : String) : String :=
  (lookupAsset store path).getD ""

/-- The first `size - 1` characters of a string: `s.substr(0, s.size() - 1)`
as used to strip the base URL's trailing slash (Plugin.cpp:57). -/
def trimLastChar (s : String) : String := String.mk (s.data.take (s.data.length - 1))

/-- The substitution dictionary built by `ServeEmbeddedFolder`
(Plugin.cpp:55): the API base URL token, the application base URL token
and the API endpoint base URL token. -/
def oe2Dictionary (oe2BaseUrl : String) : List (String × String) :=
  [("ORTHANC_API_BASE_URL", "/"),
   ("OE2_BASE_URL", trimLastChar oe2BaseUrl ++ "/app"),
   ("OE2_API_BASE_URL", trimLastChar oe2BaseUrl ++ "/api/")]

/-- Embedding of `ServeEmbeddedFolder` (Plugin.cpp:35): serve an embedded
asset for the captured path, substituting the base URL tokens when the
MIME type is JavaScript and the path starts with `/index.`.  The
framework's `Orthanc::Toolbox::SubstituteVariables` is kept abstract as
`subst`. -/
def ServeEmbeddedFolder (subst : List (String × String) → String → String)
    (store : List (String × String)) (oe2BaseUrl : String)
    (method : HttpMethod) (capture : String) : HttpResponse :=
  if method ≠ HttpMethod.get then
    { status := 405, body := "", mime := "" }
  else
    let path := "/" ++ capture
    let mimeType := AutodetectMimeType path
    let fileContent := GetDirectoryResource store path
    let fileContent :=
      if mimeType = MimeType.javaScript ∧ StartsWith path "/index." = true then
        subst (oe2Dictionary oe2BaseUrl) fileContent
      else fileContent
    { status := 200, body := fileContent, mime := mimeTypeToString mimeType }

/-- The final slash-separated component of a character list. -/
def fileNameChars (cur : List Char) : List Char → List Char
  | [] => cur
  | c :: rest => if c = '/' then fileNameChars [] rest else fileNameChars (cur ++ [c]) rest

/-- The final slash-separated component of a path: the path's "filename"
in the sense of the claim's wording about placeholder substitution. -/
def fileNameOf (p : String) : String := String.mk (fileNameChars [] p.data)

/-- C2: a GET request to the directory-asset route whose path matches no
embedded resource gets HTTP 200 with an empty body and the MIME type
auto-detected from the path's extension - never an error response.  The
substitution routine is only assumed to map an empty template to an empty
result. -/
theorem C2_missing_resource_ok (subst : List (String × String) → String → String)
    (hsubst : ∀ d, subst d "" = "") (store : List (String × String))
    (oe2BaseUrl capture : String)
    (hmiss : lookupAsset store ("/" ++ capture) = none) :
    ServeEmbeddedFolder subst store oe2BaseUrl HttpMethod.get capture =
      { status := 200, body := "",
        mime := mimeTypeToString (AutodetectMimeType ("/" ++ capture)) } := by
  simp only [ServeEmbeddedFolder, GetDirectoryResource, hmiss, Option.getD]
  split
  · next h => exact absurd rfl h
  · have hb : (if AutodetectMimeType ("/" ++ capture) = MimeType.javaScript ∧
        StartsWith ("/" ++ capture) "/index." = true then
          subst (oe2Dictionary oe2BaseUrl) "" else "") = "" := by
      split
      · exact hsubst _
      · rfl
    rw [hb]

/-- Witness for C2 at concrete inputs. -/
theorem C2_missing_resource_ok_witness :
    ServeEmbeddedFolder (fun _ s => s) [] "/ui/" HttpMethod.get "unknown/path" =
      { status := 200, body := "",
        mime := mimeTypeToString (AutodetectMimeType ("/" ++ "unknown/path")) } :=
  C2_missing_resource_ok (fun _ s => s) (fun _ => rfl) [] "/ui/" "unknown/path" rfl

/-- C3 counterexample: for the captured asset path `js/index.js` the
auto-detected MIME type is JavaScript and the path's filename starts with
`index.`, yet the responder serves the raw embedded content without
substitution (the code tests whether the whole path starts with
`/index.`, not whether its filename does), so the substituted content is
not what is served. -/
theorem C3_counterexample :
    AutodetectMimeType "/js/index.js" = MimeType.javaScript ∧
    StartsWith (fileNameOf "/js/index.js") "index." = true ∧
    (ServeEmbeddedFolder (fun _ _ => "SUBSTITUTED") [("/js/index.js", "RAW")] "/ui/"
        HttpMethod.get "js/index.js").body = "RAW" ∧
    ("RAW" : String) ≠ "SUBSTITUTED" := by
  refine ⟨by decide, by decide, ?_, by decide⟩
  decide

/-- C3 (amended): placeholder substitution is performed exactly when the
auto-detected MIME type is JavaScript and the captured path, prefixed
with `/`, starts with `/index.` (that is, a top-level `index.*` asset);
when performed, the API base token maps to `/`, the application base
token to the base URL with its trailing slash removed followed by `/app`,
and the API endpoint token to the base URL with its trailing slash
removed followed by `/api/`. -/
theorem C3_substitution_condition (subst : List (String × String) → String → String)
    (store : List (String × String)) (oe2BaseUrl capture : String) :
    (ServeEmbeddedFolder subst store oe2BaseUrl HttpMethod.get capture).body =
      (if AutodetectMimeType ("/" ++ capture) = MimeType.javaScript ∧
          StartsWith ("/" ++ capture) "/index." = true then
        subst [("ORTHANC_API_BASE_URL", "/"),
               ("OE2_BASE_URL", trimLastChar oe2BaseUrl ++ "/app"),
               ("OE2_API_BASE_URL", trimLastChar oe2BaseUrl ++ "/api/")]
          (GetDirectoryResource store ("/" ++ capture))
      else GetDirectoryResource store ("/" ++ capture)) := rfl

/-- Modelled from the spec: JsonCpp truthiness of a configuration value,
"key K with non-empty/true value" (the wrapper's boolean reading is not
part of the plugin source). -/
def jsonTruthy : JValue → Bool
  | .bool b => b
  | .null => false
  | .num n => decide (n ≠ 0)
  | .str s => decide (s ≠ "")
  | .arr xs => !xs.isEmpty
  | .obj ms => !ms.isEmpty

/-- Modelled from the spec: reading a boolean configuration flag such as
`Enable` or `ReplaceDefaultExplorer` ("Enable (boolean)"). -/
def jsonAsBool : JValue → Bool
  | .bool b => b
  | _ => false

/-- Modelled from the spec: reading a string configuration value such as
`Root` ("Root (string, must start and end with /)"); an absent or null
entry reads as the empty string, as JsonCpp's `asString` does on null. -/
def jsonAsString : JValue → String
  | .str s => s
  | _ => ""

/-- The outcome of the plugin's initialization entry point: a fatal error
(the module refuses to load), the disabled no-op state, or routes
registered under the validated base URL. -/
inductive InitOutcome where
  | failed : InitOutcome
  | disabled : InitOutcome
  | ok : String → Bool → InitOutcome
deriving DecidableEq

/-- The base-URL acceptance test of `OrthancPluginInitialize`
(Plugin.cpp:381): the string is rejected when it is empty, or its first
character is not a slash, or its last character is not a slash. -/
def rootAccepted (s : String) : Bool :=
  if s.data.length < 1 then false
  else if s.data.head? ≠ some '/' then false
  else if s.data.getLast? ≠ some '/' then false
  else true

/-- The configuration-validation slice of `OrthancPluginInitialize`
(Plugin.cpp:373): if the effective `Enable` flag holds, read `Root`,
reject it fatally unless it starts and ends with a slash, and otherwise
proceed with it as the base URL; a false `Enable` flag disables the
module. -/
def pluginStartup (cfg : List (String × JValue)) : InitOutcome :=
  if jsonAsBool ((getVal cfg "Enable").getD JValue.null) then
    if rootAccepted (jsonAsString ((getVal cfg "Root").getD JValue.null)) then
      InitOutcome.ok (jsonAsString ((getVal cfg "Root").getD JValue.null))
        (jsonAsBool ((getVal cfg "ReplaceDefaultExplorer").getD JValue.null))
    else InitOutcome.failed
  else InitOutcome.disabled

/-- An effective configuration enabling the module with the given root. -/
def cfgWithRoot (r : String) : List (String × JValue) :=
  [("Enable", JValue.bool true), ("Root", JValue.str r)]

/-- C4: with the module enabled, every configured `Root` string that does
not start with `/` or does not end with `/` is rejected as a fatal
startup error; `/ui/` is accepted while `ui/`, `/ui` and the empty string
are rejected. -/
theorem C4_root_validation :
    (∀ r : String, (r.data.head? ≠ some '/' ∨ r.data.getLast? ≠ some '/') →
      pluginStartup (cfgWithRoot r) = InitOutcome.failed) ∧
    pluginStartup (cfgWithRoot "/ui/") = InitOutcome.ok "/ui/" false ∧
    pluginStartup (cfgWithRoot "ui/") = InitOutcome.failed ∧
    pluginStartup (cfgWithRoot "/ui") = InitOutcome.failed ∧
    pluginStartup (cfgWithRoot "") = InitOutcome.failed := by
  refine ⟨?_, by decide, by decide, by decide, by decide⟩
  intro r h
  have hrej : rootAccepted r = false := by
    rw [rootAccepted]
    by_cases h0 : r.data.length < 1
    · rw [if_pos h0]
    · rw [if_neg h0]
      rcases h with h | h
      · rw [if_pos h]
      · by_cases h1 : r.data.head? ≠ some '/'
        · rw [if_pos h1]
        · rw [if_neg h1, if_pos h]
  have hred : pluginStartup (cfgWithRoot r) =
      if rootAccepted r then InitOutcome.ok r false else InitOutcome.failed := rfl
  rw [hred, hrej]
  rfl

/-- Witness for C4's universally quantified rejection clause. -/
theorem C4_root_validation_witness :
    pluginStartup (cfgWithRoot "nope") = InitOutcome.failed :=
  C4_root_validation.1 "nope" (Or.inl (by decide))

/-- C10: the base-URL test accepts a string exactly when it is non-empty,
starts with `/` and ends with `/`; in particular the single-character
string `/` is accepted and initialization proceeds with `/` as the base
URL. -/
theorem C10_root_acceptance :
    (∀ r : String, rootAccepted r = true ↔
      (r ≠ "" ∧ r.data.head? = some '/' ∧ r.data.getLast? = some '/')) ∧
    pluginStartup (cfgWithRoot "/") = InitOutcome.ok "/" false := by
  refine ⟨?_, by decide⟩
  intro r
  rw [rootAccepted]
  constructor
  · intro h
    by_cases h0 : r.data.length < 1
    · rw [if_pos h0] at h
      exact absurd h (by simp)
    · rw [if_neg h0] at h
      by_cases h1 : r.data.head? ≠ some '/'
      · rw [if_pos h1] at h
        exact absurd h (by simp)
      · rw [if_neg h1] at h
        by_cases h2 : r.data.getLast? ≠ some '/'
        · rw [if_pos h2] at h
          exact absurd h (by simp)
        · refine ⟨?_, not_not.mp h1, not_not.mp h2⟩
          intro he
          subst he
          exact h0 (by decide)
  · rintro ⟨he, h1, h2⟩
    have h0 : ¬ r.data.length < 1 := by
      intro hlt
      apply he
      cases r with
      | mk d =>
        cases d with
        | nil => rfl
        | cons c cs => simp at hlt
    rw [if_neg h0, if_neg (fun hc => hc h1), if_neg (fun hc => hc h2)]

/-- Modelled from the spec: the wrapper's section lookup, "query whether a
named configuration section exists" - a section is an object-valued
member of the host's full configuration (`GetPluginConfiguration`,
Plugin.cpp:159, returns it when present). -/
def GetPluginConfiguration (full : List (String × JValue)) (sectionName : String) :
    Option (List (String × JValue)) :=
  match getVal full sectionName with
  | some (.obj ms) => some ms
  | _ => none

/-- Modelled from the spec: the wrapper's boolean read with a default
(`GetBooleanValue(key, false)`): an absent key reads as the default, a
present key as its truthiness. -/
def GetBooleanValue (ms : List (String × JValue)) (key : String) (dflt : Bool) : Bool :=
  match getVal ms key with
  | some v => jsonTruthy v
  | none => dflt

/-- Embedding of `IsPluginEnabledInConfiguration` (Plugin.cpp:174):
enabled iff the named section exists and the named key in it reads
truthy (default false); an absent section yields false. -/
def IsPluginEnabledInConfiguration (full : List (String × JValue))
    (sectionName enableValueName : String) : Bool :=
  match GetPluginConfiguration full sectionName with
  | some ms => GetBooleanValue ms enableValueName false
  | none => false

/-- The `Enabled` value that the `GetPluginsConfiguration` loop assigns
to a plugin name: the default `true` assignment (Plugin.cpp:229) followed
by the conditional chain of per-name rules (Plugin.cpp:231). -/
def pluginEnabled (full : List (String × JValue)) (pluginName : String) : Bool :=
  if pluginName = "authorization" then
    match GetPluginConfiguration full "Authorization" with
    | some cfg => (getVal cfg "WebService").isSome
    | none => false
  else if pluginName = "connectivity-checks" then true
  else if pluginName = "dicom-web" then IsPluginEnabledInConfiguration full "DicomWeb" "Enable"
  else if pluginName = "gdcm" then IsPluginEnabledInConfiguration full "Gdcm" "Enable"
  else if pluginName = "mysql-index" then IsPluginEnabledInConfiguration full "MySQL" "EnableIndex"
  else if pluginName = "mysql-storage" then IsPluginEnabledInConfiguration full "MySQL" "EnableStorage"
  else if pluginName = "odbc-index" then IsPluginEnabledInConfiguration full "PostgreSQL" "EnableIndex"
  else if pluginName = "odbc-storage" then IsPluginEnabledInConfiguration full "PostgreSQL" "EnableStorage"
  else if pluginName = "postgresql-index" then IsPluginEnabledInConfiguration full "Odbc" "EnableIndex"
  else if pluginName = "postgresql-storage" then IsPluginEnabledInConfiguration full "Odbc" "EnableStorage"
  else if pluginName = "osimis-web-viewer" then (GetPluginConfiguration full "WebViewer").isSome
  else if pluginName = "python" then (GetPluginConfiguration full "PythonScript").isSome
  else if pluginName = "serve-folders" then (GetPluginConfiguration full "ServeFolders").isSome
  else if pluginName = "stone-webviewer" then (GetPluginConfiguration full "StoneWebViewer").isSome
  else if pluginName = "tcia" then IsPluginEnabledInConfiguration full "Tcia" "Enable"
  else if pluginName = "transfers" then true
  else if pluginName = "web-viewer" then true
  else if pluginName = "worklists" then IsPluginEnabledInConfiguration full "Worklists" "Enable"
  else if pluginName = "wsi" then true
  else true

/-- Modelled from the spec: the framework's
`Orthanc::Toolbox::SplitUriComponents`, not part of the plugin source:
the non-empty slash-separated path segments of a URI. -/
def splitSegsAux (cur : List Char) : List Char → List String
  | [] => if cur.isEmpty then [] else [String.mk cur]
  | c :: rest =>
    if c = '/' then
      if cur.isEmpty then splitSegsAux [] rest
      else String.mk cur :: splitSegsAux [] rest
    else splitSegsAux (cur ++ [c]) rest

/-- The path segments of a URI (see `splitSegsAux`). -/
def SplitUriComponents (uri : String) : List String := splitSegsAux [] uri.data

/-- The parent-path token string built by the `GetPluginsConfiguration`
loop (Plugin.cpp:204): one `../` appended per base-URL component. -/
def uriLevelsUp (oe2BaseUrl : String) : String :=
  (SplitUriComponents oe2BaseUrl).foldl (fun acc _ => acc ++ "../") ""

/-- Exactly `n` occurrences of the parent-path token `../`. -/
def parentDots : Nat → String
  | 0 => ""
  | n + 1 => "../" ++ parentDots n

theorem foldl_parentDots (l : List String) (init : String) :
    l.foldl (fun acc _ => acc ++ "../") init = init ++ parentDots l.length := by
  induction l generalizing init with
  | nil => simp [parentDots]
  | cons x rest ih =>
    rw [List.foldl_cons, ih, List.length_cons, String.append_assoc]
    rfl

/-- The RootUri rewrite of `GetPluginsConfiguration` (Plugin.cpp:223): a
present, non-empty root URI is prefixed with the parent-path tokens;
other records are unchanged. -/
def adjustedPluginInfo (tokens : String) (pluginInfo : List (String × JValue)) :
    List (String × JValue) :=
  match getVal pluginInfo "RootUri" with
  | some (.str s) =>
    if 0 < s.length then setVal pluginInfo "RootUri" (.str (tokens ++ s))
    else pluginInfo
  | _ => pluginInfo

/-- One resolved plugin record: the (possibly rewritten) host info plus
the `Enabled` flag (Plugin.cpp:228). -/
def pluginEntry (full : List (String × JValue)) (tokens : String)
    (infoOf : String → List (String × JValue)) (pluginName : String) :
    List (String × JValue) :=
  setVal (adjustedPluginInfo tokens (infoOf pluginName)) "Enabled"
    (JValue.bool (pluginEnabled full pluginName))

/-- One iteration of the `GetPluginsConfiguration` loop (Plugin.cpp:211):
skip the self-reference entry `explorer.js`, otherwise store the
resolved record under the plugin's name. -/
def pluginStep (full : List (String × JValue)) (tokens : String)
    (infoOf : String → List (String × JValue))
    (acc : List (String × JValue)) (pluginName : String) : List (String × JValue) :=
  if pluginName = "explorer.js" then acc
  else setVal acc pluginName (JValue.obj (pluginEntry full tokens infoOf pluginName))

/-- Embedding of `GetPluginsConfiguration` (Plugin.cpp:196): fold the
per-plugin resolution over the host's plugin list, starting from an
empty object; `infoOf` is the host's per-plugin info record. -/
def GetPluginsConfiguration (full : List (String × JValue)) (oe2BaseUrl : String)
    (infoOf : String → List (String × JValue)) (pluginList : List String) :
    List (String × JValue) :=
  pluginList.foldl (pluginStep full (uriLevelsUp oe2BaseUrl) infoOf) []

theorem foldl_pluginStep_skip (full : List (String × JValue)) (tokens : String)
    (infoOf : String → List (String × JValue)) (l : List String)
    (acc : List (String × JValue)) (name : String)
    (h : name = "explorer.js" ∨ name ∉ l) :
    getVal (l.foldl (pluginStep full tokens infoOf) acc) name = getVal acc name := by
  induction l generalizing acc with
  | nil => rfl
  | cons x rest ih =>
    rw [List.foldl_cons]
    have hr : name = "explorer.js" ∨ name ∉ rest := by
      rcases h with h | h
      · exact Or.inl h
      · exact Or.inr (fun hm => h (List.mem_cons_of_mem _ hm))
    rw [ih _ hr, pluginStep]
    by_cases hx : x = "explorer.js"
    · rw [if_pos hx]
    · rw [if_neg hx]
      apply getVal_setVal_ne
      rcases h with h | h
      · exact fun he => hx (he.symm.trans h)
      · exact fun he => h (by rw [he]; exact List.mem_cons_self x rest)

theorem foldl_pluginStep_mem (full : List (String × JValue)) (tokens : String)
    (infoOf : String → List (String × JValue)) (l : List String)
    (acc : List (String × JValue)) (name : String)
    (hne : name ≠ "explorer.js") (hmem : name ∈ l) :
    getVal (l.foldl (pluginStep full tokens infoOf) acc) name =
      some (JValue.obj (pluginEntry full tokens infoOf name)) := by
  induction l generalizing acc with
  | nil => exact absurd hmem (List.not_mem_nil name)
  | cons x rest ih =>
    rw [List.foldl_cons]
    by_cases hr : name ∈ rest
    · exact ih _ hr
    · have hx : name = x := by
        rcases List.mem_cons.mp hmem with h | h
        · exact h
        · exact absurd h hr
      subst hx
      rw [foldl_pluginStep_skip full tokens infoOf rest _ name (Or.inr hr)]
      rw [pluginStep, if_neg hne]
      exact getVal_setVal_self _ _ _

/-- The plugin names carrying an explicit rule in the source's
conditional chain (Plugin.cpp:231). -/
def overrideTableNames : List String :=
  ["authorization", "connectivity-checks", "dicom-web", "gdcm",
   "mysql-index", "mysql-storage", "odbc-index", "odbc-storage",
   "postgresql-index", "postgresql-storage", "osimis-web-viewer", "python",
   "serve-folders", "stone-webviewer", "tcia", "transfers", "web-viewer",
   "worklists", "wsi"]

theorem pluginEnabled_default (full : List (String × JValue)) (name : String)
    (h : name ∉ overrideTableNames) : pluginEnabled full name = true := by
  simp only [overrideTableNames, List.mem_cons, List.not_mem_nil, or_false, not_or] at h
  obtain ⟨h1, h2, h3, h4, h5, h6, h7, h8, h9, h10,
    h11, h12, h13, h14, h15, h16, h17, h18, h19⟩ := h
  rw [pluginEnabled, if_neg h1, if_neg h2, if_neg h3, if_neg h4, if_neg h5, if_neg h6,
    if_neg h7, if_neg h8, if_neg h9, if_neg h10, if_neg h11, if_neg h12, if_neg h13,
    if_neg h14, if_neg h15, if_neg h16, if_neg h17, if_neg h18, if_neg h19]

theorem length_pos_of_ne_empty {s : String} (h : s ≠ "") : 0 < s.length := by
  cases s with
  | mk d =>
    cases d with
    | nil => exact absurd rfl h
    | cons c cs => simp [String.length]

theorem getVal_entry_rooturi (full : List (String × JValue)) (tokens : String)
    (infoOf : String → List (String × JValue)) (name : String) :
    getVal (pluginEntry full tokens infoOf name) "RootUri" =
      getVal (adjustedPluginInfo tokens (infoOf name)) "RootUri" := by
  rw [pluginEntry]
  exact getVal_setVal_ne _ _ _ _ (by decide)

/-- C5: for a plugin mapped to a "section S + key K" rule, the resolved
`Enabled` flag is true iff section S exists and key K in it is truthy,
and false in every other combination (section absent, key absent or
falsy); resolution is a total function, so an absent section can never
abort the response.  The second part wires the rule for `dicom-web` to
section `DicomWeb`, key `Enable`, inside the resolver's output. -/
theorem C5_section_key_rule (full : List (String × JValue)) :
    (∀ sectionName keyName : String,
      IsPluginEnabledInConfiguration full sectionName keyName = true ↔
        ∃ ms, getVal full sectionName = some (JValue.obj ms) ∧
          ∃ v, getVal ms keyName = some v ∧ jsonTruthy v = true) ∧
    (∀ (oe2BaseUrl : String) (infoOf : String → List (String × JValue))
        (pluginList : List String), "dicom-web" ∈ pluginList →
      ∃ e, getVal (GetPluginsConfiguration full oe2BaseUrl infoOf pluginList) "dicom-web" =
          some (JValue.obj e) ∧
        getVal e "Enabled" =
          some (JValue.bool (IsPluginEnabledInConfiguration full "DicomWeb" "Enable"))) := by
  constructor
  · intro sectionName keyName
    rcases hs : getVal full sectionName with _ | v
    · simp [IsPluginEnabledInConfiguration, GetPluginConfiguration, hs]
    · cases v with
      | obj ms =>
        rcases hk : getVal ms keyName with _ | w
        · simp [IsPluginEnabledInConfiguration, GetPluginConfiguration, GetBooleanValue, hs, hk]
        · simp [IsPluginEnabledInConfiguration, GetPluginConfiguration, GetBooleanValue, hs, hk]
      | null => simp [IsPluginEnabledInConfiguration, GetPluginConfiguration, hs]
      | bool b => simp [IsPluginEnabledInConfiguration, GetPluginConfiguration, hs]
      | num n => simp [IsPluginEnabledInConfiguration, GetPluginConfiguration, hs]
      | str s => simp [IsPluginEnabledInConfiguration, GetPluginConfiguration, hs]
      | arr xs => simp [IsPluginEnabledInConfiguration, GetPluginConfiguration, hs]
  · intro oe2BaseUrl infoOf pluginList hmem
    refine ⟨pluginEntry full (uriLevelsUp oe2BaseUrl) infoOf "dicom-web", ?_, ?_⟩
    · rw [GetPluginsConfiguration]
      exact foldl_pluginStep_mem full _ infoOf pluginList [] "dicom-web" (by decide) hmem
    · rw [pluginEntry, getVal_setVal_self,
        pluginEnabled, if_neg (by decide : ¬("dicom-web" = "authorization")),
        if_neg (by decide : ¬("dicom-web" = "connectivity-checks")), if_pos rfl]

/-- Witness for C5's resolver clause at concrete inputs. -/
theorem C5_section_key_rule_witness :
    ∃ e, getVal (GetPluginsConfiguration [] "/ui/" (fun _ => []) ["dicom-web"]) "dicom-web" =
        some (JValue.obj e) ∧
      getVal e "Enabled" =
        some (JValue.bool (IsPluginEnabledInConfiguration [] "DicomWeb" "Enable")) :=
  (C5_section_key_rule []).2 "/ui/" (fun _ => []) ["dicom-web"] (by decide)

/-- C7: every host-reported plugin name other than the hardcoded
self-reference `explorer.js` that matches no entry of the override table
resolves to a record with Enabled = true, and the self-reference name
never appears in the output at all. -/
theorem C7_default_enabled (full : List (String × JValue)) (oe2BaseUrl : String)
    (infoOf : String → List (String × JValue)) (pluginList : List String) (name : String)
    (hmem : name ∈ pluginList) (hself : name ≠ "explorer.js")
    (htable : name ∉ overrideTableNames) :
    (∃ e, getVal (GetPluginsConfiguration full oe2BaseUrl infoOf pluginList) name =
        some (JValue.obj e) ∧ getVal e "Enabled" = some (JValue.bool true)) ∧
    getVal (GetPluginsConfiguration full oe2BaseUrl infoOf pluginList) "explorer.js" = none := by
  constructor
  · refine ⟨pluginEntry full (uriLevelsUp oe2BaseUrl) infoOf name, ?_, ?_⟩
    · rw [GetPluginsConfiguration]
      exact foldl_pluginStep_mem full _ infoOf pluginList [] name hself hmem
    · rw [pluginEntry, getVal_setVal_self, pluginEnabled_default full name htable]
  · rw [GetPluginsConfiguration,
      foldl_pluginStep_skip full _ infoOf pluginList [] "explorer.js" (Or.inl rfl)]
    rfl

/-- Witness for C7 at concrete inputs. -/
theorem C7_default_enabled_witness :
    (∃ e, getVal (GetPluginsConfiguration [] "/ui/" (fun _ => []) ["my-plugin"]) "my-plugin" =
        some (JValue.obj e) ∧ getVal e "Enabled" = some (JValue.bool true)) ∧
    getVal (GetPluginsConfiguration [] "/ui/" (fun _ => []) ["my-plugin"]) "explorer.js" = none :=
  C7_default_enabled [] "/ui/" (fun _ => []) ["my-plugin"] "my-plugin"
    (by decide) (by decide) (by decide)

/-- C6: a plugin record whose host info contains a non-empty string
`RootUri` is output with that value prefixed by the parent-path token
string, which consists of exactly one `../` per path segment of the
module's configured base URL; records with no `RootUri` or an empty one
are left unrewritten. -/
theorem C6_rooturi_rewrite (full : List (String × JValue)) (oe2BaseUrl : String)
    (infoOf : String → List (String × JValue)) (pluginList : List String) (name : String)
    (hmem : name ∈ pluginList) (hself : name ≠ "explorer.js") :
    ∃ e, getVal (GetPluginsConfiguration full oe2BaseUrl infoOf pluginList) name =
        some (JValue.obj e) ∧
      (∀ s : String, getVal (infoOf name) "RootUri" = some (JValue.str s) → s ≠ "" →
        getVal e "RootUri" = some (JValue.str (uriLevelsUp oe2BaseUrl ++ s))) ∧
      (getVal (infoOf name) "RootUri" = none → getVal e "RootUri" = none) ∧
      (getVal (infoOf name) "RootUri" = some (JValue.str "") →
        getVal e "RootUri" = some (JValue.str "")) ∧
      uriLevelsUp oe2BaseUrl = parentDots (SplitUriComponents oe2BaseUrl).length := by
  refine ⟨pluginEntry full (uriLevelsUp oe2BaseUrl) infoOf name, ?_, ?_, ?_, ?_, ?_⟩
  · rw [GetPluginsConfiguration]
    exact foldl_pluginStep_mem full _ infoOf pluginList [] name hself hmem
  · intro s hs hne
    have hlen : 0 < s.length := length_pos_of_ne_empty hne
    rw [getVal_entry_rooturi]
    simp only [adjustedPluginInfo, hs, hlen, if_true]
    exact getVal_setVal_self _ _ _
  · intro hnone
    rw [getVal_entry_rooturi]
    simp only [adjustedPluginInfo, hnone]
  · intro hempty
    rw [getVal_entry_rooturi]
    simp only [adjustedPluginInfo, hempty, String.length, String.data]
    rw [if_neg (by decide)]
    exact hempty
  · rw [uriLevelsUp, foldl_parentDots]
    rfl

/-- Witness for C6 at concrete inputs. -/
theorem C6_rooturi_rewrite_witness :
    ∃ e, getVal (GetPluginsConfiguration [] "/ui/"
          (fun _ => [("RootUri", JValue.str "/x/")]) ["p"]) "p" = some (JValue.obj e) ∧
      (∀ s : String,
        getVal [("RootUri", JValue.str "/x/")] "RootUri" = some (JValue.str s) → s ≠ "" →
        getVal e "RootUri" = some (JValue.str (uriLevelsUp "/ui/" ++ s))) ∧
      (getVal [("RootUri", JValue.str "/x/")] "RootUri" = none →
        getVal e "RootUri" = none) ∧
      (getVal [("RootUri", JValue.str "/x/")] "RootUri" = some (JValue.str "") →
        getVal e "RootUri" = some (JValue.str "")) ∧
      uriLevelsUp "/ui/" = parentDots (SplitUriComponents "/ui/").length :=
  C6_rooturi_rewrite [] "/ui/" (fun _ => [("RootUri", JValue.str "/x/")]) ["p"] "p"
    (by decide) (by decide)
